import Mathlib

/-!
Verification development for the tool-call orchestration engine of
AiRemoteControl (src/orchestrator/src/main.rs).

The embedding models, from the source:
  * a JSON value model with a parser standing in for serde_json::from_str
    (an external library; errors describe the failure positionally and do
    not echo the offending input, as serde_json errors do);
  * the stream-delta tool-call assembler (PartialToolCall reconstruction,
    lines 280-347);
  * the tool dispatcher (argument parsing, task spawning, join barrier and
    result collection, lines 360-476), with the capability peer and the
    vision model as function parameters;
  * the conversation-history trim loop (lines 208-234) and the
    stream-creation error path (lines 263-276).
-/

namespace AiRemoteControl

set_option maxRecDepth 8000

/-- JSON value model for serde_json::Value. Numbers keep their lexeme (no
claim depends on numeric value). Objects are field lists; the default
serde_json map is ordered, and lookups find the first matching key. -/
inductive Json where
  | null
  | bool (b : Bool)
  | num (lexeme : String)
  | str (s : String)
  | arr (elems : List Json)
  | obj (fields : List (String × Json))
deriving Repr, Inhabited

/-- Skip JSON whitespace. -/
def skipWs : List Char → List Char
  | [] => []
  | c :: cs => if c = ' ' ∨ c = '\n' ∨ c = '\t' ∨ c = '\r' then skipWs cs else c :: cs

/-- Parse the body of a JSON string literal (after the opening quote),
returning the decoded string and the remaining input. -/
def parseStrBody : List Char → Option (String × List Char)
  | [] => none
  | c :: cs =>
    if c = '"' then some ("", cs)
    else if c = '\\' then
      match cs with
      | [] => none
      | e :: cs2 =>
        let ec : Char := if e = 'n' then '\n' else if e = 't' then '\t' else if e = 'r' then '\r' else e
        match parseStrBody cs2 with
        | some (s, rest) => some (String.mk (ec :: s.data), rest)
        | none => none
    else
      match parseStrBody cs with
      | some (s, rest) => some (String.mk (c :: s.data), rest)
      | none => none

/-- Characters that may appear in a JSON number lexeme. -/
def isNumChar (c : Char) : Bool :=
  c.isDigit || c = '-' || c = '+' || c = '.' || c = 'e' || c = 'E'

/-- Take the longest run of number characters. -/
def takeNumChars : List Char → List Char × List Char
  | [] => ([], [])
  | c :: cs =>
    if isNumChar c then
      let r := takeNumChars cs
      (c :: r.1, r.2)
    else ([], c :: cs)

/-- Drop an expected literal continuation (e.g. the "rue" of "true"). -/
def dropLit : List Char → List Char → Option (List Char)
  | [], cs => some cs
  | _ :: _, [] => none
  | l :: ls, c :: cs => if c = l then dropLit ls cs else none

mutual

/-- Parse one JSON value. The fuel argument bounds recursion depth; the
top-level entry point supplies more fuel than any input can consume. -/
def parseVal : Nat → List Char → Except String (Json × List Char)
  | 0, _ => .error "recursion limit exceeded"
  | fuel + 1, cs =>
    match skipWs cs with
    | [] => .error "EOF while parsing a value"
    | c :: rest =>
      if c = '"' then
        match parseStrBody rest with
        | some (s, r) => .ok (.str s, r)
        | none => .error "EOF while parsing a string"
      else if c = '\x7b' then parseObjFields fuel rest []
      else if c = '[' then parseArrElems fuel rest []
      else if c = 't' then
        match dropLit ['r', 'u', 'e'] rest with
        | some r => .ok (.bool true, r)
        | none => .error "expected ident"
      else if c = 'f' then
        match dropLit ['a', 'l', 's', 'e'] rest with
        | some r => .ok (.bool false, r)
        | none => .error "expected ident"
      else if c = 'n' then
        match dropLit ['u', 'l', 'l'] rest with
        | some r => .ok (.null, r)
        | none => .error "expected ident"
      else if isNumChar c then
        let r := takeNumChars (c :: rest)
        if r.1.any (·.isDigit) then .ok (.num (String.mk r.1), r.2)
        else .error "expected value"
      else .error "expected value"

/-- Parse object fields after the opening brace (or after a comma). -/
def parseObjFields : Nat → List Char → List (String × Json) → Except String (Json × List Char)
  | 0, _, _ => .error "recursion limit exceeded"
  | fuel + 1, cs, acc =>
    match skipWs cs with
    | [] => .error "EOF while parsing an object"
    | c :: rest =>
      if c = '\x7d' then
        if acc.isEmpty then .ok (.obj [], rest) else .error "trailing comma"
      else if c = '"' then
        match parseStrBody rest with
        | none => .error "EOF while parsing a string"
        | some (k, r1) =>
          match skipWs r1 with
          | ':' :: r2 =>
            match parseVal fuel r2 with
            | .error e => .error e
            | .ok (v, r3) =>
              match skipWs r3 with
              | ',' :: r4 => parseObjFields fuel r4 (acc ++ [(k, v)])
              | '\x7d' :: r4 => .ok (.obj (acc ++ [(k, v)]), r4)
              | _ => .error "expected comma or end of object"
          | _ => .error "expected colon"
      else .error "key must be a string"

/-- Parse array elements after the opening bracket (or after a comma). -/
def parseArrElems : Nat → List Char → List Json → Except String (Json × List Char)
  | 0, _, _ => .error "recursion limit exceeded"
  | fuel + 1, cs, acc =>
    match skipWs cs with
    | [] => .error "EOF while parsing a list"
    | c :: rest =>
      if c = ']' then
        if acc.isEmpty then .ok (.arr [], rest) else .error "trailing comma"
      else
        match parseVal fuel (c :: rest) with
        | .error e => .error e
        | .ok (v, r1) =>
          match skipWs r1 with
          | ',' :: r2 => parseArrElems fuel r2 (acc ++ [v])
          | ']' :: r2 => .ok (.arr (acc ++ [v]), r2)
          | _ => .error "expected comma or end of list"

end

/-- Model of serde_json::from_str::<Value>: parse a complete JSON document.
Error strings describe the failure; like serde_json errors they do not
contain the offending input text. -/
def Json.parse (s : String) : Except String Json :=
  match parseVal (s.length + 1) s.data with
  | .error e => .error e
  | .ok (j, rest) =>
    match skipWs rest with
    | [] => .ok j
    | _ :: _ => .error "trailing characters"

/-- Model of Value::get(key): field lookup, defined only on objects. -/
def Json.getField : Json → String → Option Json
  | .obj fields, key => (fields.find? (fun kv => kv.1 == key)).map (·.2)
  | _, _ => none

/-- Model of Value::as_str(). -/
def Json.asStr : Json → Option String
  | .str s => some s
  | _ => none

/-- Mirror of struct PartialToolCall (main.rs lines 39-46): one in-progress
tool call reconstructed from stream deltas, keyed by slot index. -/
structure PartialToolCall where
  index : Option Nat := none
  id : Option String := none
  name : Option String := none
  arguments : String := ""
deriving Repr, DecidableEq, Inhabited

/-- Mirror of the function fragment inside a stream tool-call delta: an
optional name piece and an optional arguments chunk. -/
structure FunctionChunk where
  name : Option String
  arguments : Option String
deriving Repr, DecidableEq

/-- Mirror of one tool-call delta chunk from the stream (lines 300-316):
an index naming the slot, an optional id, and an optional function part. -/
structure ToolCallChunk where
  index : Nat
  id : Option String
  function : Option FunctionChunk
deriving Repr, DecidableEq

/-- The contents of the partial_tool_calls HashMap (line 280), as an
association list in first-touch insertion order with unique keys. -/
abbrev AssemblerMap := List (Nat × PartialToolCall)

/-- HashMap lookup by slot index. -/
def lookupSlot : AssemblerMap → Nat → Option PartialToolCall
  | [], _ => none
  | kv :: rest, i => if kv.1 = i then some kv.2 else lookupSlot rest i

/-- HashMap store: replace the entry for the key, or insert a new one. -/
def updateSlot : AssemblerMap → Nat → PartialToolCall → AssemblerMap
  | [], i, p => [(i, p)]
  | kv :: rest, i, p => if kv.1 = i then (i, p) :: rest else kv :: updateSlot rest i p

/-- The per-chunk mutation of one slot's PartialToolCall (lines 302-315):
entry(index).or_default(), store the index, overwrite id and name when the
chunk carries them, and append the arguments chunk to the buffer. -/
def chunkSlotApply (p? : Option PartialToolCall) (c : ToolCallChunk) : PartialToolCall :=
  let p0 := p?.getD default
  let p1 := { p0 with index := some c.index }
  let p2 := match c.id with
    | some i => { p1 with id := some i }
    | none => p1
  match c.function with
  | some f =>
    let pa := match f.name with
      | some n => { p2 with name := some n }
      | none => p2
    match f.arguments with
    | some a => { pa with arguments := pa.arguments ++ a }
    | none => pa
  | none => p2

/-- Process one stream tool-call chunk against the map (lines 300-316). -/
def applyChunk (m : AssemblerMap) (c : ToolCallChunk) : AssemblerMap :=
  updateSlot m c.index (chunkSlotApply (lookupSlot m c.index) c)

/-- Process a whole stream of tool-call chunks from the given map state. -/
def runChunksFrom (m : AssemblerMap) (cs : List ToolCallChunk) : AssemblerMap :=
  cs.foldl applyChunk m

/-- Process a whole stream of tool-call chunks from the empty map. -/
def runChunks (cs : List ToolCallChunk) : AssemblerMap :=
  runChunksFrom [] cs

/-- Mirror of ChatCompletionMessageToolCall as built at lines 336-343:
a completed tool call handed to the dispatcher. -/
structure FinalToolCall where
  id : String
  name : String
  arguments : String
deriving Repr, DecidableEq, Inhabited

/-- Finalization of one slot (lines 334-346): a slot emits a completed call
exactly when both id and name are set, with argumentsRaw the accumulated
buffer; otherwise it is dropped (logged as an incomplete tool call). -/
def completedOf (p : PartialToolCall) : Option FinalToolCall :=
  match p.id, p.name with
  | some i, some n => some ⟨i, n, p.arguments⟩
  | _, _ => none

/-- The slot state a stream of chunks leaves at index i. -/
def slotState (cs : List ToolCallChunk) (i : Nat) : Option PartialToolCall :=
  lookupSlot (runChunks cs) i

/-- The completed call (if any) slot i emits at stream end. -/
def completedSlot (cs : List ToolCallChunk) (i : Nat) : Option FinalToolCall :=
  (slotState cs i).bind completedOf

/-- Keys of the map, in insertion order. -/
def slotKeys (m : AssemblerMap) : List Nat := m.map (·.1)

/-- Finalization loop of lines 334-347. The source iterates
partial_tool_calls.into_iter(); a Rust std HashMap yields its entries in an
unspecified order, so the model takes the iteration order as a parameter,
constrained in the theorems to a permutation of the keys. -/
def finalToolCalls (m : AssemblerMap) (order : List Nat) : List FinalToolCall :=
  order.filterMap (fun i => (lookupSlot m i).bind completedOf)

/-- An upper bound on the slot keys, used only to enumerate keys below. -/
def maxSlotKey : AssemblerMap → Nat
  | [] => 0
  | kv :: rest => max kv.1 (maxSlotKey rest)

/-- The touched slot indices in ascending order. -/
def ascSlotKeys (m : AssemblerMap) : List Nat :=
  (List.range (maxSlotKey m + 1)).filter (fun i => (lookupSlot m i).isSome)

/-- Stated from the spec (claim C2): the completed calls ordered by
ascending slot index, the order the spec asserts for the dispatch list. -/
def finalToolCallsAsc (m : AssemblerMap) : List FinalToolCall :=
  finalToolCalls m (ascSlotKeys m)

/-- One rmcp content item of a CallToolResult: text or something else. -/
inductive RawCont where
  | text (s : String)
  | other
deriving Repr, DecidableEq

/-- Mirror of rmcp::model::CallToolResult: the content list returned by
the capability peer. -/
structure CallToolResult where
  content : List RawCont
deriving Repr, DecidableEq

/-- One ChatCompletionRequestToolMessage: a tool result turn correlated to
its tool call by id. -/
structure ToolMsg where
  tool_call_id : String
  content : String
deriving Repr, DecidableEq

/-- One spawned MCP call task (lines 392-401): the captured call id, tool
name, and the parsed argument object (None when the arguments parsed as
valid JSON that was not an object). -/
structure SpawnedCall where
  callId : String
  toolName : String
  arguments : Option (List (String × Json))
deriving Repr, Inhabited

/-- The parse-error message synthesized at line 381. It interpolates only
the tool name and the parser error, not the offending raw arguments. -/
def invalidArgsMsg (toolName e : String) : String :=
  "Invalid JSON arguments provided by AI for tool \x27" ++ toolName ++ "\x27: " ++ e

/-- The dispatch loop of lines 365-402, up to the join barrier. For each
completed call in order: parse argumentsRaw; on a parse error push the
error tool message directly into conversation history (first component —
these appends happen during the loop, before the join barrier) and skip
spawning; otherwise spawn a peer task (second component, in spawn order),
with None arguments when the JSON was valid but not an object. -/
def dispatchPhase : List FinalToolCall → List ToolMsg × List SpawnedCall
  | [] => ([], [])
  | tc :: rest =>
    let r := dispatchPhase rest
    match Json.parse tc.arguments with
    | .ok (Json.obj fields) => (r.1, ⟨tc.id, tc.name, some fields⟩ :: r.2)
    | .ok _ => (r.1, ⟨tc.id, tc.name, none⟩ :: r.2)
    | .error e => (⟨tc.id, invalidArgsMsg tc.name e⟩ :: r.1, r.2)

/-- The join barrier of line 405 (join_all): every spawned task completes
and yields (call_id, tool_name, peer outcome). The capability peer is a
parameter: it maps a tool name and parsed arguments to content or a
transport/remote error, caught inside the task as a Result. -/
def joinAll (peer : String → Option (List (String × Json)) → Except String CallToolResult)
    (spawned : List SpawnedCall) : List (String × String × Except String CallToolResult) :=
  spawned.map (fun s => (s.callId, s.toolName, peer s.toolName s.arguments))

/-- The error JSON built at line 454 for a failed MCP execution. The
default serde_json map orders keys alphabetically, so "message" precedes
"status" in the rendered object. -/
def mcpErrorJson (toolName callId e : String) : String :=
  "\x7b\"message\":\"Failed MCP execution for tool \x27" ++ toolName ++
    "\x27 (call_id: \x27" ++ callId ++ "\x27): " ++ e ++ "\",\"status\":\"error\"\x7d"

/-- The diagnostic produced at line 431 when vision analysis fails. -/
def visionFailureMsg (e : String) : String :=
  "Screenshot captured but vision analysis failed: " ++ e

/-- Result post-processing of lines 414-457 for one joined task: convert
the peer outcome into the text content of the tool message. For a
successful capture_screen result whose first text content parses as JSON
with a base64_data string field, the vision model (a parameter) is asked
for a description; on vision failure the content becomes a diagnostic
message; when the field is absent or the JSON does not parse, the raw text
passes through. Other tools pass their text through unchanged. -/
def processToolResult (vision : String → Except String String)
    (toolName callId : String) (res : Except String CallToolResult) : String :=
  match res with
  | .error e => mcpErrorJson toolName callId e
  | .ok data =>
    match data.content.head? with
    | none => "Tool \x27" ++ toolName ++ "\x27 (call_id: \x27" ++ callId ++ "\x27) returned no content."
    | some RawCont.other =>
      "Tool \x27" ++ toolName ++ "\x27 (call_id: \x27" ++ callId ++ "\x27) returned non-text content."
    | some (RawCont.text rawText) =>
      if toolName == "capture_screen" then
        match Json.parse rawText with
        | .error _ => rawText
        | .ok j =>
          match (j.getField "base64_data").bind Json.asStr with
          | none => rawText
          | some b64 =>
            match vision b64 with
            | .ok desc => desc
            | .error e => visionFailureMsg e
      else rawText

/-- The post-barrier collection of lines 410-470: one tool message per
joined task, in join order. -/
def collectToolMessages (vision : String → Except String String)
    (results : List (String × String × Except String CallToolResult)) : List ToolMsg :=
  results.map (fun r => ⟨r.1, processToolResult vision r.2.1 r.1 r.2.2⟩)

/-- All tool messages one round appends to conversation history, in append
order: the parse-error messages pushed during the dispatch loop (line 382),
followed after the join barrier by the collected results (lines 472-476). -/
def roundToolMessages (vision : String → Except String String)
    (peer : String → Option (List (String × Json)) → Except String CallToolResult)
    (reqs : List FinalToolCall) : List ToolMsg :=
  (dispatchPhase reqs).1 ++ collectToolMessages vision (joinAll peer (dispatchPhase reqs).2)

/-- Conversation turn roles. -/
inductive Role where
  | system
  | user
  | assistant
  | tool
deriving Repr, DecidableEq

/-- One conversation history entry (ChatCompletionRequestMessage, in the
variants this program constructs). -/
inductive Msg where
  | system (content : String)
  | user (content : String)
  | assistant (content : Option String) (toolCalls : List FinalToolCall)
  | tool (toolCallId : String) (content : String)
deriving Repr, DecidableEq

/-- The role of a history entry. -/
def Msg.role : Msg → Role
  | .system _ => .system
  | .user _ => .user
  | .assistant _ _ => .assistant
  | .tool _ _ => .tool

/-- MAX_CONVERSATION_DEPTH (main.rs line 33). -/
def MAX_CONVERSATION_DEPTH : Nat := 15

/-- The trim loop of lines 210-234, with explicit fuel: while the history
is longer than maxDepth, if at least 2 entries exist remove the entry at
index 1 (the oldest non-system message), else stop. The entry point below
supplies fuel no run can exhaust, since every iteration shortens the list. -/
def trimLoop : Nat → Nat → List Msg → List Msg
  | 0, _, l => l
  | fuel + 1, maxDepth, l =>
    if maxDepth < l.length then
      if 2 ≤ l.length then trimLoop fuel maxDepth (l.eraseIdx 1)
      else l
    else l

/-- The trim procedure run at the top of each inner-loop iteration. -/
def trimHistory (maxDepth : Nat) (l : List Msg) : List Msg :=
  trimLoop l.length maxDepth l

/-- One history mutation: the program only ever appends to the tail
(push_back) or runs the trim loop. -/
inductive HistOp where
  | append (m : Msg)
  | trim
deriving Repr, DecidableEq

/-- Apply one history operation. -/
def applyHistOp (l : List Msg) : HistOp → List Msg
  | .append m => l ++ [m]
  | .trim => trimHistory MAX_CONVERSATION_DEPTH l

/-- Run a sequence of appends and trims against an initial history. -/
def runHistOps (init : List Msg) (ops : List HistOp) : List Msg :=
  ops.foldl applyHistOp init

/-- What one inner-loop iteration does up to stream creation. -/
inductive RoundOutcome where
  | abortToOuterLoop
  | continueStreaming
deriving Repr, DecidableEq

/-- Lines 208-276 of the inner loop up to stream handling: trim the
history, build the request from it, and attempt to create the completion
stream. On a transport/API error the arm at lines 265-275 only logs and
breaks the inner loop: the history is exactly the trimmed history the
request was built from, and control returns to the outer input loop. -/
def streamCreationStep (hist : List Msg) (streamRes : Except String Unit) :
    List Msg × RoundOutcome :=
  let trimmed := trimHistory MAX_CONVERSATION_DEPTH hist
  match streamRes with
  | .error _ => (trimmed, .abortToOuterLoop)
  | .ok _ => (trimmed, .continueStreaming)

/-! Lemmas about the trim loop and history operations. -/

theorem trimLoop_head? (fuel maxDepth : Nat) (l : List Msg) :
    (trimLoop fuel maxDepth l).head? = l.head? := by
  induction fuel generalizing l with
  | zero => rfl
  | succ fuel ih =>
    rw [trimLoop]
    split
    · split
      · rename_i h1 h2
        rw [ih]
        cases l with
        | nil => simp at h2
        | cons a t =>
          cases t with
          | nil => simp at h2
          | cons b t2 => simp
      · rfl
    · rfl

theorem trimLoop_length (fuel maxDepth : Nat) (hd : 1 ≤ maxDepth) :
    ∀ l : List Msg, l.length ≤ fuel + maxDepth →
      (trimLoop fuel maxDepth l).length = min l.length maxDepth := by
  induction fuel with
  | zero =>
    intro l hl
    rw [trimLoop]
    omega
  | succ fuel ih =>
    intro l hl
    rw [trimLoop]
    split
    · split
      · rename_i h1 h2
        have herase : (l.eraseIdx 1).length = l.length - 1 := by
          cases l with
          | nil => simp at h2
          | cons a t =>
            cases t with
            | nil => simp at h2
            | cons b t2 => simp
        rw [ih (l.eraseIdx 1) (by omega)]
        omega
      · omega
    · omega

theorem trimLoop_getLast? (fuel maxDepth : Nat) (hd : 2 ≤ maxDepth) :
    ∀ l : List Msg, (trimLoop fuel maxDepth l).getLast? = l.getLast? := by
  induction fuel with
  | zero => intro l; rfl
  | succ fuel ih =>
    intro l
    rw [trimLoop]
    split
    · split
      · rename_i h1 h2
        rw [ih]
        cases l with
        | nil => simp at h2
        | cons a t =>
          cases t with
          | nil => simp at h2
          | cons b t2 =>
            cases t2 with
            | nil => simp at h1; omega
            | cons c t3 => simp [List.getLast?_cons_cons]
      · rfl
    · rfl

theorem trimHistory_head? (maxDepth : Nat) (l : List Msg) :
    (trimHistory maxDepth l).head? = l.head? :=
  trimLoop_head? _ _ _

theorem trimHistory_length (maxDepth : Nat) (hd : 1 ≤ maxDepth) (l : List Msg) :
    (trimHistory maxDepth l).length = min l.length maxDepth :=
  trimLoop_length _ _ hd l (by omega)

theorem trimHistory_getLast? (maxDepth : Nat) (hd : 2 ≤ maxDepth) (l : List Msg) :
    (trimHistory maxDepth l).getLast? = l.getLast? :=
  trimLoop_getLast? _ _ hd l

theorem runHistOps_head? (ops : List HistOp) :
    ∀ init : List Msg, init ≠ [] →
      (runHistOps init ops).head? = init.head? ∧ runHistOps init ops ≠ [] := by
  induction ops with
  | nil => exact fun init h => ⟨rfl, h⟩
  | cons op rest ih =>
    intro init h
    have hstep : runHistOps init (op :: rest) = runHistOps (applyHistOp init op) rest := rfl
    cases op with
    | append m =>
      have h2 : (init ++ [m]) ≠ [] := by simp
      have hr := ih (init ++ [m]) h2
      rw [hstep]
      refine ⟨?_, hr.2⟩
      rw [show applyHistOp init (HistOp.append m) = init ++ [m] from rfl] at *
      rw [hr.1]
      cases init with
      | nil => exact absurd rfl h
      | cons a t => simp
    | trim =>
      have hne : trimHistory MAX_CONVERSATION_DEPTH init ≠ [] := by
        intro hc
        have hh := trimHistory_head? MAX_CONVERSATION_DEPTH init
        rw [hc] at hh
        cases init with
        | nil => exact h rfl
        | cons a t => simp at hh
      have hr := ih _ hne
      rw [hstep]
      refine ⟨?_, hr.2⟩
      rw [show applyHistOp init HistOp.trim = trimHistory MAX_CONVERSATION_DEPTH init from rfl] at *
      rw [hr.1, trimHistory_head?]

/-- C1: for every sequence of history operations (appends and trim runs)
starting from a history whose only entry is a System turn, the turn at
index 0 is never removed (the trim loop only ever removes index 1, while
length > maxDepth and length >= 2), and after a trim-loop run the length
is min(previous length, maxDepth) — in particular at most
MAX_CONVERSATION_DEPTH = 15, and exactly 15 once at least 15 entries have
accumulated, with index 0 unchanged. -/
theorem history_trim_never_evicts_protected_system
    (sys : Msg) (ops : List HistOp) (_hsys : sys.role = Role.system) :
    (runHistOps [sys] ops).head? = some sys ∧
    (trimHistory MAX_CONVERSATION_DEPTH (runHistOps [sys] ops)).length
      = min (runHistOps [sys] ops).length MAX_CONVERSATION_DEPTH ∧
    (trimHistory MAX_CONVERSATION_DEPTH (runHistOps [sys] ops)).length
      ≤ MAX_CONVERSATION_DEPTH := by
  have h := runHistOps_head? ops [sys] (by simp)
  have hlen := trimHistory_length MAX_CONVERSATION_DEPTH (by decide) (runHistOps [sys] ops)
  exact ⟨by rw [h.1]; rfl, hlen, by omega⟩

/-- Witness for C1: a protected System turn followed by 16 appended User
turns; after the trim loop the length is exactly 15 and index 0 still
holds the System turn. -/
theorem history_trim_never_evicts_protected_system_witness :
    (Msg.system "prompt").role = Role.system ∧
    (runHistOps [Msg.system "prompt"]
        (List.replicate 16 (HistOp.append (Msg.user "u")))).head?
      = some (Msg.system "prompt") ∧
    (trimHistory MAX_CONVERSATION_DEPTH
        (runHistOps [Msg.system "prompt"]
          (List.replicate 16 (HistOp.append (Msg.user "u"))))).length = 15 := by
  refine ⟨rfl, ?_, ?_⟩
  · exact (history_trim_never_evicts_protected_system (Msg.system "prompt")
      (List.replicate 16 (HistOp.append (Msg.user "u"))) rfl).1
  · have h := (history_trim_never_evicts_protected_system (Msg.system "prompt")
      (List.replicate 16 (HistOp.append (Msg.user "u"))) rfl).2.1
    rw [h]
    rfl

/-- C8: if creating the completion stream fails, the error arm performs no
history mutation: the resulting history is exactly the trimmed history the
request was built from (identical to what a successful attempt would hold
at that point), the just-appended User turn at the tail is still present,
and the round terminates back to the outer user-input loop. -/
theorem stream_error_leaves_history_intact
    (hist : List Msg) (e u : String) (hu : hist.getLast? = some (Msg.user u)) :
    (streamCreationStep hist (.error e)).2 = RoundOutcome.abortToOuterLoop ∧
    (streamCreationStep hist (.error e)).1 = (streamCreationStep hist (.ok ())).1 ∧
    (streamCreationStep hist (.error e)).1.getLast? = some (Msg.user u) := by
  refine ⟨rfl, rfl, ?_⟩
  show (trimHistory MAX_CONVERSATION_DEPTH hist).getLast? = _
  rw [trimHistory_getLast? _ (by decide), hu]

/-- Witness for C8 at a concrete history and error. -/
theorem stream_error_leaves_history_intact_witness :
    (streamCreationStep [Msg.system "s", Msg.user "hello"] (.error "boom")).2
      = RoundOutcome.abortToOuterLoop ∧
    (streamCreationStep [Msg.system "s", Msg.user "hello"] (.error "boom")).1
      = (streamCreationStep [Msg.system "s", Msg.user "hello"] (.ok ())).1 ∧
    (streamCreationStep [Msg.system "s", Msg.user "hello"] (.error "boom")).1.getLast?
      = some (Msg.user "hello") :=
  stream_error_leaves_history_intact [Msg.system "s", Msg.user "hello"] "boom" "hello" rfl

/-! Lemmas about the assembler map. -/

theorem lookupSlot_updateSlot (m : AssemblerMap) (i j : Nat) (p : PartialToolCall) :
    lookupSlot (updateSlot m i p) j = if i = j then some p else lookupSlot m j := by
  induction m with
  | nil =>
    by_cases h : i = j <;> simp [updateSlot, lookupSlot, h]
  | cons kv rest ih =>
    by_cases hk : kv.1 = i
    · by_cases h : i = j <;> simp [updateSlot, lookupSlot, hk, h]
    · by_cases h : i = j
      · subst h
        simp [updateSlot, lookupSlot, hk, ih]
      · simp [updateSlot, lookupSlot, hk, h, ih]

theorem lookupSlot_runChunksFrom (cs : List ToolCallChunk) :
    ∀ (m : AssemblerMap) (i : Nat),
      lookupSlot (runChunksFrom m cs) i =
        (cs.filter (fun c => c.index == i)).foldl
          (fun p? c => some (chunkSlotApply p? c)) (lookupSlot m i) := by
  induction cs with
  | nil => intro m i; rfl
  | cons c rest ih =>
    intro m i
    have hstep : runChunksFrom m (c :: rest) = runChunksFrom (applyChunk m c) rest := rfl
    rw [hstep, ih]
    by_cases hc : c.index = i
    · have hfil : (c :: rest).filter (fun c => c.index == i)
          = c :: rest.filter (fun c => c.index == i) := by
        simp [List.filter_cons, hc]
      rw [hfil]
      simp only [List.foldl_cons]
      have hlook : lookupSlot (applyChunk m c) i = some (chunkSlotApply (lookupSlot m i) c) := by
        rw [applyChunk, lookupSlot_updateSlot]
        simp [hc]
      rw [hlook]
    · have hfil : (c :: rest).filter (fun c => c.index == i)
          = rest.filter (fun c => c.index == i) := by
        simp [List.filter_cons, hc]
      rw [hfil]
      have hlook : lookupSlot (applyChunk m c) i = lookupSlot m i := by
        rw [applyChunk, lookupSlot_updateSlot]
        simp [hc]
      rw [hlook]

/-- C7: the completed call a slot emits depends only on the subsequence of
chunks addressed to that slot, applied in arrival order: two chunk streams
with the same per-slot subsequences (any inter-slot interleaving, in
particular the one-batch-per-slot stream) produce the same completed
ToolCallRequest at every slot, hence the same set of completed calls. -/
theorem assembler_interleaving_independence
    (cs1 cs2 : List ToolCallChunk)
    (h : ∀ i, cs1.filter (fun c => c.index == i) = cs2.filter (fun c => c.index == i)) :
    ∀ i, completedSlot cs1 i = completedSlot cs2 i := by
  intro i
  unfold completedSlot slotState runChunks
  rw [lookupSlot_runChunksFrom, lookupSlot_runChunksFrom, h i]

/-- An interleaved chunk stream over slots 0 and 1 (each slot in order). -/
def interleavedChunks : List ToolCallChunk :=
  [⟨0, some "a0", none⟩,
   ⟨1, some "b1", some ⟨some "beta", some "\x7b\"y\":"⟩⟩,
   ⟨0, none, some ⟨some "alpha", some "\x7b\"x\":1"⟩⟩,
   ⟨1, none, some ⟨none, some "2\x7d"⟩⟩,
   ⟨0, none, some ⟨none, some "\x7d"⟩⟩]

/-- The same fragments with each slot applied in one batch. -/
def batchedChunks : List ToolCallChunk :=
  [⟨0, some "a0", none⟩,
   ⟨0, none, some ⟨some "alpha", some "\x7b\"x\":1"⟩⟩,
   ⟨0, none, some ⟨none, some "\x7d"⟩⟩,
   ⟨1, some "b1", some ⟨some "beta", some "\x7b\"y\":"⟩⟩,
   ⟨1, none, some ⟨none, some "2\x7d"⟩⟩]

/-- Witness for C7: a concrete interleaving and its batched version give
identical completed calls on every slot. -/
theorem assembler_interleaving_independence_witness :
    completedSlot interleavedChunks 0 = completedSlot batchedChunks 0 ∧
    completedSlot interleavedChunks 1 = completedSlot batchedChunks 1 ∧
    completedSlot interleavedChunks 0 = some ⟨"a0", "alpha", "\x7b\"x\":1\x7d"⟩ := by
  have h : ∀ i, interleavedChunks.filter (fun c => c.index == i)
      = batchedChunks.filter (fun c => c.index == i) := by
    intro i
    match i with
    | 0 => rfl
    | 1 => rfl
    | n + 2 => rfl
  exact ⟨assembler_interleaving_independence interleavedChunks batchedChunks h 0,
         assembler_interleaving_independence interleavedChunks batchedChunks h 1,
         rfl⟩

/-- The name piece carried by a chunk, when any. -/
def chunkName (c : ToolCallChunk) : Option String :=
  match c.function with
  | some f => f.name
  | none => none

/-- The arguments piece carried by a chunk (empty when absent). -/
def chunkArg (c : ToolCallChunk) : String :=
  match c.function with
  | some f => f.arguments.getD ""
  | none => ""

/-- Concatenation of a list of strings, in order. -/
def strConcat : List String → String
  | [] => ""
  | s :: rest => s ++ strConcat rest

/-- The accumulated arguments buffer of a slot: the concatenation, in
arrival order, of the argument chunks addressed to it. -/
def slotArgsBuffer (cs : List ToolCallChunk) (i : Nat) : String :=
  strConcat ((cs.filter (fun c => c.index == i)).map chunkArg)

theorem chunkSlotApply_arguments (p? : Option PartialToolCall) (c : ToolCallChunk) :
    (chunkSlotApply p? c).arguments = (p?.getD default).arguments ++ chunkArg c := by
  obtain ⟨idx, cid, cf⟩ := c
  cases cf with
  | none => cases cid <;> simp [chunkSlotApply, chunkName, chunkArg]
  | some f =>
    obtain ⟨fn, fa⟩ := f
    cases cid <;> cases fn <;> cases fa <;> simp [chunkSlotApply, chunkName, chunkArg]

theorem chunkSlotApply_id (p? : Option PartialToolCall) (c : ToolCallChunk) (h : c.id = none) :
    (chunkSlotApply p? c).id = (p?.getD default).id := by
  obtain ⟨idx, cid, cf⟩ := c
  cases cid with
  | none =>
    cases cf with
    | none => simp [chunkSlotApply]
    | some f =>
      obtain ⟨fn, fa⟩ := f
      cases fn <;> cases fa <;> simp [chunkSlotApply]
  | some s => simp at h

theorem chunkSlotApply_name (p? : Option PartialToolCall) (c : ToolCallChunk)
    (h : chunkName c = none) :
    (chunkSlotApply p? c).name = (p?.getD default).name := by
  obtain ⟨idx, cid, cf⟩ := c
  cases cf with
  | none => cases cid <;> simp [chunkSlotApply]
  | some f =>
    obtain ⟨fn, fa⟩ := f
    simp [chunkName] at h
    subst h
    cases cid <;> cases fa <;> simp [chunkSlotApply]

theorem slotFold_arguments (cs : List ToolCallChunk) :
    ∀ p? : Option PartialToolCall,
      ((cs.foldl (fun q? c => some (chunkSlotApply q? c)) p?).getD default).arguments
        = (p?.getD default).arguments ++ strConcat (cs.map chunkArg) := by
  induction cs with
  | nil => intro p?; simp [strConcat]
  | cons c rest ih =>
    intro p?
    simp only [List.foldl_cons, List.map_cons]
    rw [ih]
    have hsome : ((some (chunkSlotApply p? c)).getD default) = chunkSlotApply p? c := rfl
    rw [hsome, chunkSlotApply_arguments]
    have hj : strConcat (chunkArg c :: rest.map chunkArg)
        = chunkArg c ++ strConcat (rest.map chunkArg) := rfl
    rw [hj, String.append_assoc]

theorem slotFold_id_name_none (cs : List ToolCallChunk)
    (hall : ∀ c ∈ cs, c.id = none ∧ chunkName c = none) :
    ∀ p? : Option PartialToolCall,
      (p?.getD default).id = none → (p?.getD default).name = none →
      ((cs.foldl (fun q? c => some (chunkSlotApply q? c)) p?).getD default).id = none ∧
      ((cs.foldl (fun q? c => some (chunkSlotApply q? c)) p?).getD default).name = none := by
  induction cs with
  | nil => exact fun p? hid hname => ⟨hid, hname⟩
  | cons c rest ih =>
    intro p? hid hname
    have hc := hall c (by simp)
    have hrest : ∀ c ∈ rest, c.id = none ∧ chunkName c = none :=
      fun c hc => hall c (by simp [hc])
    simp only [List.foldl_cons]
    exact ih hrest (some (chunkSlotApply p? c))
      (by rw [show ((some (chunkSlotApply p? c)).getD default) = chunkSlotApply p? c from rfl,
              chunkSlotApply_id _ _ hc.1]; exact hid)
      (by rw [show ((some (chunkSlotApply p? c)).getD default) = chunkSlotApply p? c from rfl,
              chunkSlotApply_name _ _ hc.2]; exact hname)

/-- C9: a slot that accumulated only argument chunks (no id, no name piece)
emits no completed call at stream end; a slot whose state has both id and
name set emits exactly the one completed call whose argumentsRaw is its
accumulated arguments buffer (the concatenation of its argument chunks in
arrival order). -/
theorem incomplete_fragment_dropped_completed_emitted
    (cs : List ToolCallChunk) (i : Nat) :
    ((∀ c ∈ cs, c.index = i → c.id = none ∧ chunkName c = none) →
      completedSlot cs i = none) ∧
    (∀ p a n, slotState cs i = some p → p.id = some a → p.name = some n →
      completedSlot cs i = some ⟨a, n, slotArgsBuffer cs i⟩) := by
  have hlook : slotState cs i
      = (cs.filter (fun c => c.index == i)).foldl
          (fun p? c => some (chunkSlotApply p? c)) none := by
    unfold slotState runChunks
    rw [lookupSlot_runChunksFrom]
    rfl
  constructor
  · intro hall
    have hfall : ∀ c ∈ cs.filter (fun c => c.index == i), c.id = none ∧ chunkName c = none := by
      intro c hc
      rw [List.mem_filter] at hc
      exact hall c hc.1 (by have := hc.2; simpa using this)
    have hfold := slotFold_id_name_none _ hfall none rfl rfl
    unfold completedSlot
    rw [hlook]
    cases hval : (cs.filter (fun c => c.index == i)).foldl
        (fun p? c => some (chunkSlotApply p? c)) none with
    | none => rfl
    | some p =>
      rw [hval] at hfold
      have hid : p.id = none := hfold.1
      simp [completedOf, hid]
  · intro p a n hstate hid hname
    unfold completedSlot
    rw [hstate]
    have hargs : p.arguments = slotArgsBuffer cs i := by
      have := slotFold_arguments (cs.filter (fun c => c.index == i)) none
      rw [hlook] at hstate
      rw [hstate] at this
      simpa [slotArgsBuffer] using this
    simp [completedOf, hid, hname, hargs]

/-- Chunk stream where slot 0 receives only argument chunks and slot 1
completes normally. -/
def onlyArgsChunks : List ToolCallChunk :=
  [⟨0, none, some ⟨none, some "\x7b\"x\""⟩⟩,
   ⟨0, none, some ⟨none, some ":1\x7d"⟩⟩,
   ⟨1, some "b1", some ⟨some "beta", some "\x7b\x7d"⟩⟩]

/-- Witness for C9: the id-and-name-less slot 0 yields no completed call;
the completed slot 1 yields exactly one call carrying its buffer. -/
theorem incomplete_fragment_dropped_completed_emitted_witness :
    completedSlot onlyArgsChunks 0 = none ∧
    completedSlot onlyArgsChunks 1 = some ⟨"b1", "beta", "\x7b\x7d"⟩ := by
  constructor
  · exact (incomplete_fragment_dropped_completed_emitted onlyArgsChunks 0).1 (by decide)
  · have h := (incomplete_fragment_dropped_completed_emitted onlyArgsChunks 1).2
      ⟨some 1, some "b1", some "beta", "\x7b\x7d"⟩ "b1" "beta" rfl rfl rfl
    rw [h]
    rfl

/-! Lemmas about the key set of the assembler map, toward claim C2. -/

theorem slotKeys_cons (kv : Nat × PartialToolCall) (rest : AssemblerMap) :
    slotKeys (kv :: rest) = kv.1 :: slotKeys rest := rfl

theorem mem_slotKeys_updateSlot (m : AssemblerMap) (i j : Nat) (p : PartialToolCall) :
    j ∈ slotKeys (updateSlot m i p) ↔ j ∈ slotKeys m ∨ j = i := by
  induction m with
  | nil => simp [updateSlot, slotKeys]
  | cons kv rest ih =>
    obtain ⟨k1, v1⟩ := kv
    by_cases hk : k1 = i
    · subst hk
      rw [show updateSlot ((k1, v1) :: rest) k1 p = (k1, p) :: rest by simp [updateSlot]]
      simp only [slotKeys_cons, List.mem_cons]
      tauto
    · rw [show updateSlot ((k1, v1) :: rest) i p
          = (k1, v1) :: updateSlot rest i p by simp [updateSlot, hk]]
      simp only [slotKeys_cons, List.mem_cons]
      rw [ih]
      tauto

theorem nodup_slotKeys_updateSlot (m : AssemblerMap) (i : Nat) (p : PartialToolCall)
    (h : (slotKeys m).Nodup) : (slotKeys (updateSlot m i p)).Nodup := by
  induction m with
  | nil => simp [updateSlot, slotKeys]
  | cons kv rest ih =>
    obtain ⟨k1, v1⟩ := kv
    rw [slotKeys_cons, List.nodup_cons] at h
    by_cases hk : k1 = i
    · subst hk
      rw [show updateSlot ((k1, v1) :: rest) k1 p = (k1, p) :: rest by simp [updateSlot]]
      rw [slotKeys_cons, List.nodup_cons]
      exact ⟨h.1, h.2⟩
    · rw [show updateSlot ((k1, v1) :: rest) i p
          = (k1, v1) :: updateSlot rest i p by simp [updateSlot, hk]]
      rw [slotKeys_cons, List.nodup_cons]
      refine ⟨?_, ih h.2⟩
      intro hmem
      rcases (mem_slotKeys_updateSlot rest i k1 p).1 hmem with hc | hc
      · exact h.1 hc
      · exact hk hc

theorem nodup_slotKeys_runChunksFrom (cs : List ToolCallChunk) :
    ∀ m : AssemblerMap, (slotKeys m).Nodup → (slotKeys (runChunksFrom m cs)).Nodup := by
  induction cs with
  | nil => exact fun m h => h
  | cons c rest ih =>
    intro m h
    exact ih (applyChunk m c) (nodup_slotKeys_updateSlot m c.index _ h)

theorem lookupSlot_isSome_iff_mem (m : AssemblerMap) (i : Nat) :
    (lookupSlot m i).isSome ↔ i ∈ slotKeys m := by
  induction m with
  | nil => simp [lookupSlot, slotKeys]
  | cons kv rest ih =>
    obtain ⟨k1, v1⟩ := kv
    by_cases h : k1 = i
    · subst h
      simp [lookupSlot, slotKeys_cons]
    · rw [slotKeys_cons, List.mem_cons,
          show lookupSlot ((k1, v1) :: rest) i = lookupSlot rest i by simp [lookupSlot, h],
          ih]
      constructor
      · exact fun hm => Or.inr hm
      · rintro (hc | hc)
        · exact absurd hc.symm h
        · exact hc

theorem mem_slotKeys_le_maxSlotKey (m : AssemblerMap) (i : Nat) (h : i ∈ slotKeys m) :
    i ≤ maxSlotKey m := by
  induction m with
  | nil => simp [slotKeys] at h
  | cons kv rest ih =>
    rw [slotKeys_cons, List.mem_cons] at h
    have hm : maxSlotKey (kv :: rest) = max kv.1 (maxSlotKey rest) := rfl
    rcases h with h | h
    · omega
    · have := ih h
      omega

theorem mem_ascSlotKeys (m : AssemblerMap) (i : Nat) :
    i ∈ ascSlotKeys m ↔ i ∈ slotKeys m := by
  unfold ascSlotKeys
  rw [List.mem_filter]
  constructor
  · rintro ⟨_, h2⟩
    exact (lookupSlot_isSome_iff_mem m i).1 (by simpa using h2)
  · intro h
    refine ⟨?_, by simpa using (lookupSlot_isSome_iff_mem m i).2 h⟩
    rw [List.mem_range]
    have := mem_slotKeys_le_maxSlotKey m i h
    omega

theorem nodup_ascSlotKeys (m : AssemblerMap) : (ascSlotKeys m).Nodup :=
  (List.nodup_range _).filter _

theorem slotKeys_perm_ascSlotKeys (m : AssemblerMap) (h : (slotKeys m).Nodup) :
    (slotKeys m).Perm (ascSlotKeys m) := by
  apply List.perm_of_nodup_nodup_toFinset_eq h (nodup_ascSlotKeys m)
  ext a
  simp [List.mem_toFinset, mem_ascSlotKeys]

/-- C2 amended: the finalization loop iterates the HashMap in an
unspecified order; for every admissible iteration order (a permutation of
the touched slot keys) the list handed to dispatch is a permutation of —
the same set as — the ascending-slotIndex list, but not necessarily that
list itself. -/
theorem finalToolCalls_perm_of_iteration_order
    (cs : List ToolCallChunk) (order : List Nat)
    (h : order.Perm (slotKeys (runChunks cs))) :
    (finalToolCalls (runChunks cs) order).Perm (finalToolCallsAsc (runChunks cs)) := by
  have hnd : (slotKeys (runChunks cs)).Nodup :=
    nodup_slotKeys_runChunksFrom cs [] (by simp [slotKeys])
  have h2 : order.Perm (ascSlotKeys (runChunks cs)) :=
    h.trans (slotKeys_perm_ascSlotKeys _ hnd)
  simpa [finalToolCalls, finalToolCallsAsc] using h2.filterMap _

/-- Chunk stream touching slot 1 first, then slot 0, both completing. -/
def hashOrderChunks : List ToolCallChunk :=
  [⟨1, some "b1", some ⟨some "beta", some "\x7b\x7d"⟩⟩,
   ⟨0, some "a0", some ⟨some "alpha", some "\x7b\x7d"⟩⟩]

/-- Counterexample to C2 as stated: [1, 0] is an admissible HashMap
iteration order (a permutation of the touched keys), and under it the
finalized list is not ordered by ascending slot index. -/
theorem finalToolCalls_not_ascending_counterexample :
    ([1, 0].Perm (slotKeys (runChunks hashOrderChunks))) ∧
    finalToolCalls (runChunks hashOrderChunks) [1, 0]
      = [⟨"b1", "beta", "\x7b\x7d"⟩, ⟨"a0", "alpha", "\x7b\x7d"⟩] ∧
    finalToolCallsAsc (runChunks hashOrderChunks)
      = [⟨"a0", "alpha", "\x7b\x7d"⟩, ⟨"b1", "beta", "\x7b\x7d"⟩] ∧
    finalToolCalls (runChunks hashOrderChunks) [1, 0]
      ≠ finalToolCallsAsc (runChunks hashOrderChunks) := by
  exact ⟨by decide, rfl, rfl, by decide⟩

/-- Witness for the amended C2 at a concrete stream and iteration order. -/
theorem finalToolCalls_perm_of_iteration_order_witness :
    (finalToolCalls (runChunks hashOrderChunks) [0, 1]).Perm
      (finalToolCallsAsc (runChunks hashOrderChunks)) :=
  finalToolCalls_perm_of_iteration_order hashOrderChunks [0, 1] (by decide)

/-! Lemmas about the dispatch phase. -/

theorem joinAll_cons
    (peer : String → Option (List (String × Json)) → Except String CallToolResult)
    (s : SpawnedCall) (sp : List SpawnedCall) :
    joinAll peer (s :: sp)
      = (s.callId, s.toolName, peer s.toolName s.arguments) :: joinAll peer sp := rfl

theorem collectToolMessages_cons (vision : String → Except String String)
    (r : String × String × Except String CallToolResult)
    (rs : List (String × String × Except String CallToolResult)) :
    collectToolMessages vision (r :: rs)
      = ⟨r.1, processToolResult vision r.2.1 r.1 r.2.2⟩ :: collectToolMessages vision rs := rfl

theorem dispatchPhase_cons_ok (tc : FinalToolCall) (rest : List FinalToolCall) (v : Json)
    (h : Json.parse tc.arguments = .ok v) :
    ∃ args, dispatchPhase (tc :: rest)
      = ((dispatchPhase rest).1, ⟨tc.id, tc.name, args⟩ :: (dispatchPhase rest).2) := by
  cases v with
  | obj fields => exact ⟨some fields, by simp [dispatchPhase, h]⟩
  | null => exact ⟨none, by simp [dispatchPhase, h]⟩
  | bool b => exact ⟨none, by simp [dispatchPhase, h]⟩
  | num s => exact ⟨none, by simp [dispatchPhase, h]⟩
  | str s => exact ⟨none, by simp [dispatchPhase, h]⟩
  | arr l => exact ⟨none, by simp [dispatchPhase, h]⟩

theorem roundToolMessages_ids_perm
    (vision : String → Except String String)
    (peer : String → Option (List (String × Json)) → Except String CallToolResult)
    (rs : List FinalToolCall) :
    ((roundToolMessages vision peer rs).map ToolMsg.tool_call_id).Perm
      (rs.map FinalToolCall.id) := by
  induction rs with
  | nil => simp [roundToolMessages, dispatchPhase, collectToolMessages, joinAll]
  | cons tc rest ih =>
    have hround : roundToolMessages vision peer (tc :: rest)
        = (dispatchPhase (tc :: rest)).1
          ++ collectToolMessages vision (joinAll peer (dispatchPhase (tc :: rest)).2) := rfl
    cases hp : Json.parse tc.arguments with
    | error e =>
      have hd : dispatchPhase (tc :: rest)
          = (⟨tc.id, invalidArgsMsg tc.name e⟩ :: (dispatchPhase rest).1,
             (dispatchPhase rest).2) := by
        simp [dispatchPhase, hp]
      rw [hround, hd]
      simp only [List.cons_append, List.map_cons]
      exact ih.cons tc.id
    | ok v =>
      obtain ⟨args, hd⟩ := dispatchPhase_cons_ok tc rest v hp
      rw [hround, hd]
      rw [joinAll_cons, collectToolMessages_cons]
      simp only [List.map_append, List.map_cons]
      refine List.Perm.trans List.perm_middle ?_
      refine List.Perm.cons _ ?_
      rw [← List.map_append]
      exact ih

/-- C4 amended: for every batch, exactly one tool result message is
produced per input request regardless of outcome (success, remote error,
or argument parse error), correlated by callId (the multiset of result
callIds equals the multiset of request ids); however, parse-error results
are appended to history during the dispatch loop itself, before the join
barrier — only the spawned peer-call results wait for the barrier. -/
theorem dispatch_exactly_one_result_per_request
    (vision : String → Except String String)
    (peer : String → Option (List (String × Json)) → Except String CallToolResult)
    (reqs : List FinalToolCall) :
    (roundToolMessages vision peer reqs).length = reqs.length ∧
    ((roundToolMessages vision peer reqs).map ToolMsg.tool_call_id).Perm
      (reqs.map FinalToolCall.id) := by
  have h := roundToolMessages_ids_perm vision peer reqs
  refine ⟨?_, h⟩
  have hl := h.length_eq
  simpa using hl

/-- Counterexample to C4 as stated: in a batch with one malformed call and
one well-formed call, the parse-error result message is pushed into
conversation history during the dispatch loop (the pre-barrier component
is non-empty) while a dispatched peer call is still outstanding (the
spawned component is non-empty): a result is appended to history before
every dispatched call has produced its result. -/
theorem parse_error_result_appended_before_barrier :
    (dispatchPhase [⟨"c1", "click", "\x7binvalid"⟩, ⟨"c2", "wait", "\x7b\x7d"⟩]).1
      = [⟨"c1", invalidArgsMsg "click" "key must be a string"⟩] ∧
    (dispatchPhase [⟨"c1", "click", "\x7binvalid"⟩, ⟨"c2", "wait", "\x7b\x7d"⟩]).2.length = 1 ∧
    (dispatchPhase [⟨"c1", "click", "\x7binvalid"⟩, ⟨"c2", "wait", "\x7b\x7d"⟩]).1 ≠ [] := by
  refine ⟨rfl, rfl, ?_⟩
  have h1 : (dispatchPhase [⟨"c1", "click", "\x7binvalid"⟩, ⟨"c2", "wait", "\x7b\x7d"⟩]).1
      = [⟨"c1", invalidArgsMsg "click" "key must be a string"⟩] := rfl
  intro hc
  rw [h1] at hc
  exact List.cons_ne_nil _ _ hc

/-- C5: in a batch of two well-formed calls where the peer fails on the
first and succeeds on the second, exactly two results are produced, in
order, each carrying its callId; the failing one carries the error JSON
embedding the peer error, the other carries its real content, and neither
the sibling invocation nor the round is aborted (both results exist). -/
theorem dispatch_failure_isolation
    (vision : String → Except String String)
    (peer : String → Option (List (String × Json)) → Except String CallToolResult)
    (r1 r2 : FinalToolCall) (m1 m2 : List (String × Json)) (e c : String)
    (h1 : Json.parse r1.arguments = .ok (Json.obj m1))
    (h2 : Json.parse r2.arguments = .ok (Json.obj m2))
    (hp1 : peer r1.name (some m1) = .error e)
    (hp2 : peer r2.name (some m2) = .ok ⟨[RawCont.text c]⟩)
    (hn : (r2.name == "capture_screen") = false) :
    roundToolMessages vision peer [r1, r2]
      = [⟨r1.id, mcpErrorJson r1.name r1.id e⟩, ⟨r2.id, c⟩] := by
  have hd : dispatchPhase [r1, r2]
      = ([], [⟨r1.id, r1.name, some m1⟩, ⟨r2.id, r2.name, some m2⟩]) := by
    simp [dispatchPhase, h1, h2]
  have hround : roundToolMessages vision peer [r1, r2]
      = (dispatchPhase [r1, r2]).1
        ++ collectToolMessages vision (joinAll peer (dispatchPhase [r1, r2]).2) := rfl
  rw [hround, hd]
  have hn2 : r2.name ≠ "capture_screen" := by simpa using hn
  simp [joinAll, collectToolMessages, hp1, hp2, processToolResult, hn2]

/-- The peer used by the C5 witness: fails deterministically for exactly
one tool name. -/
def witnessPeer : String → Option (List (String × Json)) → Except String CallToolResult :=
  fun n _ => if n = "boomtool" then .error "boom" else .ok ⟨[.text "real content"]⟩

/-- Witness for C5 at a concrete batch of two calls. -/
theorem dispatch_failure_isolation_witness :
    roundToolMessages (fun _ => .ok "unused") witnessPeer
        [⟨"c1", "boomtool", "\x7b\x7d"⟩, ⟨"c2", "wait", "\x7b\x7d"⟩]
      = [⟨"c1", mcpErrorJson "boomtool" "c1" "boom"⟩, ⟨"c2", "real content"⟩] :=
  dispatch_failure_isolation (fun _ => .ok "unused") witnessPeer
    ⟨"c1", "boomtool", "\x7b\x7d"⟩ ⟨"c2", "wait", "\x7b\x7d"⟩ [] [] "boom" "real content"
    rfl rfl (by simp [witnessPeer]) (by simp [witnessPeer]) rfl

/-- C6 amended: a syntactically invalid argumentsRaw short-circuits the
call: a tool result with that callId and a non-empty error message
embedding the parse failure (and the tool name) is synthesized, nothing is
spawned, and the round outcome is independent of the capability peer (it
is never invoked for that call). The offending raw input, however, is not
embedded in the message — the source interpolates only the tool name and
the parser error (it logs the raw text, line 379, but does not put it in
the result). -/
theorem invalid_args_short_circuit
    (tc : FinalToolCall) (e : String) (h : Json.parse tc.arguments = .error e) :
    dispatchPhase [tc] = ([⟨tc.id, invalidArgsMsg tc.name e⟩], []) ∧
    invalidArgsMsg tc.name e ≠ "" ∧
    (∃ p : String, invalidArgsMsg tc.name e = p ++ e) ∧
    (∀ vision peer peer2, roundToolMessages vision peer [tc]
        = roundToolMessages vision peer2 [tc]) := by
  have hd : dispatchPhase [tc] = ([⟨tc.id, invalidArgsMsg tc.name e⟩], []) := by
    simp [dispatchPhase, h]
  refine ⟨hd, ?_, ⟨_, rfl⟩, ?_⟩
  · intro hc
    have hlen := congrArg String.length hc
    simp [invalidArgsMsg, String.length_append] at hlen
    exact absurd hlen.1.1.1 (by decide)
  · intro vision peer peer2
    have hround : ∀ pr, roundToolMessages vision pr [tc]
        = (dispatchPhase [tc]).1
          ++ collectToolMessages vision (joinAll pr (dispatchPhase [tc]).2) := fun _ => rfl
    rw [hround peer, hround peer2, hd]
    rfl

/-- Counterexample to C6 as stated: for argumentsRaw "(brace)invalid" on
call id c1 the synthesized message does not contain the offending raw
input as a substring — it embeds only the tool name and the parse
failure. -/
theorem invalid_args_message_omits_raw_input :
    dispatchPhase [⟨"c1", "click", "\x7binvalid"⟩]
      = ([⟨"c1", invalidArgsMsg "click" "key must be a string"⟩], []) ∧
    ¬ ("\x7binvalid".data <:+: (invalidArgsMsg "click" "key must be a string").data) := by
  exact ⟨rfl, by decide⟩

/-- Witness for the amended C6 at the concrete malformed input. -/
theorem invalid_args_short_circuit_witness :
    dispatchPhase [(⟨"c1", "click", "\x7binvalid"⟩ : FinalToolCall)]
      = ([⟨"c1", invalidArgsMsg "click" "key must be a string"⟩], []) ∧
    invalidArgsMsg "click" "key must be a string" ≠ "" := by
  have h := invalid_args_short_circuit ⟨"c1", "click", "\x7binvalid"⟩ "key must be a string" rfl
  exact ⟨h.1, h.2.1⟩

/-- C10: arguments that parse as valid JSON but not as an object do not
take the parse-error path: no error result is synthesized, and the peer is
invoked for that call with absent (None) arguments. -/
theorem non_object_args_invoke_peer_with_empty
    (tc : FinalToolCall) (v : Json)
    (hp : Json.parse tc.arguments = .ok v) (hv : ∀ fields, v ≠ Json.obj fields) :
    dispatchPhase [tc] = ([], [⟨tc.id, tc.name, none⟩]) ∧
    (∀ peer, joinAll peer (dispatchPhase [tc]).2
        = [(tc.id, tc.name, peer tc.name none)]) := by
  have h1 : dispatchPhase [tc] = ([], [⟨tc.id, tc.name, none⟩]) := by
    cases v with
    | obj fields => exact absurd rfl (hv fields)
    | null => simp [dispatchPhase, hp]
    | bool b => simp [dispatchPhase, hp]
    | num s => simp [dispatchPhase, hp]
    | str s => simp [dispatchPhase, hp]
    | arr l => simp [dispatchPhase, hp]
  exact ⟨h1, fun peer => by rw [h1]; rfl⟩

/-- Witness for C10: a bare number argument payload reaches the peer with
absent arguments instead of producing a parse error. -/
theorem non_object_args_invoke_peer_with_empty_witness :
    dispatchPhase [(⟨"c1", "click", "5"⟩ : FinalToolCall)] = ([], [⟨"c1", "click", none⟩]) ∧
    joinAll (fun _ _ => .ok ⟨[]⟩) (dispatchPhase [(⟨"c1", "click", "5"⟩ : FinalToolCall)]).2
      = [("c1", "click", .ok ⟨[]⟩)] := by
  have h := non_object_args_invoke_peer_with_empty ⟨"c1", "click", "5"⟩ (.num "5") rfl
    (fun fields hc => Json.noConfusion hc)
  exact ⟨h.1, h.2 _⟩

/-- C3 amended: for a successful capture_screen result whose payload
carries a base64_data string field, a vision failure replaces the content
with a short diagnostic embedding the vision error — the raw payload is
dropped from the result — and the round still produces exactly one
ordinary tool result for that call (the failure is never escalated); when
the field is absent the raw content passes through unchanged. -/
theorem vision_failure_diagnostic_and_absent_passthrough
    (vision : String → Except String String) (raw : String) :
    (∀ (peer : String → Option (List (String × Json)) → Except String CallToolResult)
        (req : FinalToolCall) (fields : List (String × Json)) (j : Json) (b64 e : String),
      Json.parse req.arguments = .ok (Json.obj fields) →
      peer req.name (some fields) = .ok ⟨[RawCont.text raw]⟩ →
      req.name = "capture_screen" →
      Json.parse raw = .ok j →
      (j.getField "base64_data").bind Json.asStr = some b64 →
      vision b64 = .error e →
      roundToolMessages vision peer [req] = [⟨req.id, visionFailureMsg e⟩]) ∧
    (∀ (callId : String) (j : Json),
      Json.parse raw = .ok j →
      (j.getField "base64_data").bind Json.asStr = none →
      processToolResult vision "capture_screen" callId (.ok ⟨[RawCont.text raw]⟩) = raw) := by
  constructor
  · intro peer req fields j b64 e hargs hpeer hname hraw hb64 hvis
    obtain ⟨rid, rname, rargs⟩ := req
    have hname2 : rname = "capture_screen" := hname
    subst hname2
    have hd : dispatchPhase [(⟨rid, "capture_screen", rargs⟩ : FinalToolCall)]
        = ([], [⟨rid, "capture_screen", some fields⟩]) := by
      simp [dispatchPhase, hargs]
    have hround : roundToolMessages vision peer [(⟨rid, "capture_screen", rargs⟩ : FinalToolCall)]
        = (dispatchPhase [(⟨rid, "capture_screen", rargs⟩ : FinalToolCall)]).1
          ++ collectToolMessages vision
            (joinAll peer (dispatchPhase [(⟨rid, "capture_screen", rargs⟩ : FinalToolCall)]).2) := rfl
    rw [hround, hd]
    simp [joinAll, collectToolMessages, hpeer, processToolResult, hraw, hb64, hvis]
  · intro callId j hraw hb64
    simp [processToolResult, hraw, hb64]

/-- Counterexample to C3 as stated: on vision failure the resulting
content is only the diagnostic note; the original raw content is not
retained (were the result the raw content with a note appended, the raw
content would be a prefix of it). -/
theorem vision_failure_drops_raw_counterexample :
    processToolResult (fun _ => .error "boom") "capture_screen" "c1"
        (.ok ⟨[RawCont.text "\x7b\"base64_data\":\"abc\"\x7d"]⟩)
      = visionFailureMsg "boom" ∧
    ¬ ("\x7b\"base64_data\":\"abc\"\x7d".data <+: (visionFailureMsg "boom").data) := by
  exact ⟨rfl, by decide⟩

/-- The peer used by the C3 witness: returns a capture_screen payload with
an embedded base64 field. -/
def capturePeer : String → Option (List (String × Json)) → Except String CallToolResult :=
  fun _ _ => .ok ⟨[.text "\x7b\"base64_data\":\"abc\"\x7d"]⟩

/-- Witness for the amended C3: a failing vision model yields the single
diagnostic tool result for the capture call, and a payload without the
field passes through raw. -/
theorem vision_failure_diagnostic_and_absent_passthrough_witness :
    roundToolMessages (fun _ => .error "boom") capturePeer
        [⟨"c1", "capture_screen", "\x7b\x7d"⟩]
      = [⟨"c1", visionFailureMsg "boom"⟩] ∧
    processToolResult (fun _ => .error "boom") "capture_screen" "c9"
        (.ok ⟨[RawCont.text "\x7b\"other\":1\x7d"]⟩)
      = "\x7b\"other\":1\x7d" := by
  constructor
  · exact (vision_failure_diagnostic_and_absent_passthrough (fun _ => .error "boom")
      "\x7b\"base64_data\":\"abc\"\x7d").1 capturePeer
      ⟨"c1", "capture_screen", "\x7b\x7d"⟩ [] (Json.obj [("base64_data", Json.str "abc")])
      "abc" "boom" rfl rfl rfl rfl rfl rfl
  · exact (vision_failure_diagnostic_and_absent_passthrough (fun _ => .error "boom")
      "\x7b\"other\":1\x7d").2 "c9" (Json.obj [("other", Json.num "1")]) rfl rfl

end AiRemoteControl
